import Mathlib

/-!
Verification of the portable-SIMD mask / reduction / rounding core
(crates/core_simd). Machine integers are represented as `Nat` reduced
modulo `2 ^ w`; the signed lane value `-1` of a `w`-bit integer is the
all-ones pattern `2 ^ w - 1`. A vector of `n` lanes is a `List Nat` of
length `n`.
-/

/-- Value of the all-ones `w`-bit lane pattern, i.e. the two's-complement
representation of `-1` at width `w`. -/
def allOnes (w : Nat) : Nat := 2 ^ w - 1

/-! Bit/byte packing helpers used by the bitmask serialization
(little-endian: the head of the list is bit 0 / byte 0). -/

/-- Pack a list of booleans into a natural number, lane `i` becoming bit `i`. -/
def natOfBits : List Bool → Nat
  | [] => 0
  | b :: bs => (if b then 1 else 0) + 2 * natOfBits bs

/-- Unpack the low `n` bits of a natural number into a list of booleans. -/
def bitsOfNat : Nat → Nat → List Bool
  | 0, _ => []
  | n + 1, m => decide (m % 2 = 1) :: bitsOfNat n (m / 2)

/-- Serialize a natural number into `k` little-endian bytes. -/
def bytesOfNat : Nat → Nat → List Nat
  | 0, _ => []
  | k + 1, m => (m % 256) :: bytesOfNat k (m / 256)

/-- Deserialize a little-endian byte sequence into a natural number. -/
def natOfBytes : List Nat → Nat
  | [] => 0
  | b :: bs => b + 256 * natOfBytes bs

theorem natOfBits_lt (l : List Bool) : natOfBits l < 2 ^ l.length := by
  induction l with
  | nil => simp [natOfBits]
  | cons b bs ih =>
    simp only [natOfBits, List.length_cons, pow_succ]
    cases b <;> simp <;> omega

theorem length_bitsOfNat (n m : Nat) : (bitsOfNat n m).length = n := by
  induction n generalizing m with
  | zero => rfl
  | succ n ih => simp [bitsOfNat, ih]

theorem bitsOfNat_natOfBits (l : List Bool) :
    bitsOfNat l.length (natOfBits l) = l := by
  induction l with
  | nil => rfl
  | cons b bs ih =>
    simp only [List.length_cons, bitsOfNat, natOfBits]
    cases b with
    | false =>
      have h2 : (0 + 2 * natOfBits bs) % 2 = 0 := by omega
      have h3 : (0 + 2 * natOfBits bs) / 2 = natOfBits bs := by omega
      simp [h2, h3, ih]
    | true =>
      have h2 : (1 + 2 * natOfBits bs) % 2 = 1 := by omega
      have h3 : (1 + 2 * natOfBits bs) / 2 = natOfBits bs := by omega
      simp [h2, h3, ih]

theorem natOfBits_bitsOfNat (n m : Nat) (h : m < 2 ^ n) :
    natOfBits (bitsOfNat n m) = m := by
  induction n generalizing m with
  | zero =>
    simp only [pow_zero, Nat.lt_one_iff] at h
    simp [h, bitsOfNat, natOfBits]
  | succ n ih =>
    simp only [bitsOfNat, natOfBits]
    have hdiv : m / 2 < 2 ^ n := by
      rw [pow_succ] at h; omega
    rw [ih (m / 2) hdiv]
    by_cases h2 : m % 2 = 1 <;> simp [h2] <;> omega

theorem natOfBytes_bytesOfNat (k m : Nat) :
    natOfBytes (bytesOfNat k m) = m % 256 ^ k := by
  induction k generalizing m with
  | zero => simp [bytesOfNat, natOfBytes, Nat.mod_one]
  | succ k ih =>
    simp only [bytesOfNat, natOfBytes, ih]
    have : m % 256 ^ (k + 1) = m % 256 + 256 * (m / 256 % 256 ^ k) := by
      rw [pow_succ, mul_comm, Nat.mod_mul]
    omega

/-! The dense mask backend.

Modelled from the spec: the file implementing the dense encoding
(`masks/full_masks.rs`, selected by the `cfg_attr` dispatch in
`masks/mod.rs` lines 5-13) is not under `src/`. Per the spec's data
model, a dense `Mask(w, n)` is `n` lanes of `w`-bit integers, each
invariantly either `0` or all-ones; a lane is true exactly when it
holds the all-ones pattern. -/

/-- Modelled from the spec: validity invariant of the dense encoding —
every lane is `0` or the all-ones `w`-bit pattern. -/
def denseValid (w : Nat) (v : List Nat) : Prop :=
  ∀ x ∈ v, x = 0 ∨ x = allOnes w

instance (w : Nat) (v : List Nat) : Decidable (denseValid w v) := by
  unfold denseValid; infer_instance

/-- Modelled from the spec: dense-backend splat — every lane set to the
encoding of the given boolean. -/
def denseSplat (w n : Nat) (b : Bool) : List Nat :=
  List.replicate n (if b then allOnes w else 0)

/-- Modelled from the spec: dense-backend unchecked lane extraction — a
lane is true exactly when it holds the all-ones pattern. -/
def denseTest (w : Nat) (v : List Nat) (i : Nat) : Bool :=
  decide (v.getD i 0 = allOnes w)

/-- Modelled from the spec: dense-backend unchecked lane update — writes
the boolean's encoding into the given lane. -/
def denseSet (w : Nat) (v : List Nat) (i : Nat) (b : Bool) : List Nat :=
  v.set i (if b then allOnes w else 0)

/-- Modelled from the spec: dense-backend `to_bitmask` — serializes the
per-lane truth values into `ceil(n/8)` little-endian bytes, one bit per
lane. -/
def denseToBitmask (w : Nat) (v : List Nat) : List Nat :=
  bytesOfNat ((v.length + 7) / 8) (natOfBits (v.map fun x => decide (x = allOnes w)))

/-- Modelled from the spec: dense-backend `from_bitmask` — reads one bit
per lane from the byte sequence and re-encodes each as `0`/all-ones. -/
def denseFromBitmask (w n : Nat) (bytes : List Nat) : List Nat :=
  (bitsOfNat n (natOfBytes bytes)).map fun b => if b then allOnes w else 0

/-! The packed mask backend.

Modelled from the spec: the file implementing the packed encoding
(`masks/bitmask.rs`, selected for `x86_64`+`avx512f` by the `cfg_attr`
dispatch in `masks/mod.rs` lines 5-13) is not under `src/`. Per the
spec's data model, a packed `Mask(w, n)` is a compact bit-vector of `n`
bits, represented here as a `Nat` below `2 ^ n` (bit `i` is lane `i`). -/

/-- Modelled from the spec: packed-backend splat. -/
def packedSplat (n : Nat) (b : Bool) : Nat :=
  if b then allOnes n else 0

/-- Modelled from the spec: packed-backend unchecked lane extraction —
reads bit `i` of the bit-vector. -/
def packedTest (m i : Nat) : Bool :=
  decide (m / 2 ^ i % 2 = 1)

/-- Modelled from the spec: packed-backend `to_bitmask` — serializes the
`n`-bit vector into `ceil(n/8)` little-endian bytes. -/
def packedToBitmask (n m : Nat) : List Nat :=
  bytesOfNat ((n + 7) / 8) m

/-- Modelled from the spec: packed-backend `from_bitmask` — reads the
byte sequence back into an `n`-bit vector. -/
def packedFromBitmask (n : Nat) (bytes : List Nat) : Nat :=
  natOfBytes bytes % 2 ^ n

/-! The opaque mask layer (`masks/mod.rs`), over the dense backend. The
lane count `LANES` of a mask `v : List Nat` is `v.length`. -/

/-- Opaque-layer checked `test` (`masks/mod.rs` lines 153-156): asserts
`lane < LANES` (a failed assertion is `none`), then delegates to the
backend's unchecked extraction. -/
def Mask.test (w : Nat) (v : List Nat) (lane : Nat) : Option Bool :=
  if lane < v.length then some (denseTest w v lane) else none

/-- Opaque-layer checked `set` (`masks/mod.rs` lines 172-175): asserts
`lane < LANES` (a failed assertion is `none`, and no lane is written),
then delegates to the backend's unchecked update. -/
def Mask.set (w : Nat) (v : List Nat) (lane : Nat) (b : Bool) : Option (List Nat) :=
  if lane < v.length then some (denseSet w v lane b) else none

/-- Loop body of `from_array` (`masks/mod.rs` lines 87-95): starting
from `splat(false)`, set lane `i` to `array[i]` while `i < LANES`. The
fuel argument counts the remaining iterations; the source's checked
`set` succeeds at every call because `i < LANES` holds inside the loop. -/
def fromArrayLoop (w : Nat) (a : List Bool) : Nat → List Nat → Nat → List Nat
  | 0, v, _ => v
  | fuel + 1, v, i =>
    if i < a.length then fromArrayLoop w a fuel (denseSet w v i (a.getD i false)) (i + 1)
    else v

/-- Opaque-layer `from_array` (`masks/mod.rs` lines 87-95). -/
def from_array (w : Nat) (a : List Bool) : List Nat :=
  fromArrayLoop w a a.length (denseSplat w a.length false) 0

/-- Opaque-layer `to_array` (`masks/mod.rs` lines 98-106): `array[i] =
self.test(i)` for every `i < LANES`. -/
def to_array (w n : Nat) (v : List Nat) : List Bool :=
  (List.range n).map (denseTest w v)

/-- Opaque-layer checked `from_int` (`masks/mod.rs` lines 124-130):
asserts `(value.lanes_eq(splat(0)) | value.lanes_eq(splat(-1))).all()`
(a failed assertion is `none`), then the unchecked conversion, which in
the dense backend reinterprets the integer vector as the mask. -/
def from_int (w : Nat) (v : List Nat) : Option (List Nat) :=
  if v.all (fun x => x == 0 || x == allOnes w) then some v else none

/-- Opaque-layer `to_int` (`masks/mod.rs` lines 135-137); in the dense
backend the mask already is its integer-vector representation. -/
def to_int (v : List Nat) : List Nat := v

/-! Supporting lemmas. -/

theorem allOnes_pos (w : Nat) (hw : 0 < w) : 0 < allOnes w := by
  have : 2 ≤ 2 ^ w := by
    calc 2 = 2 ^ 1 := (pow_one 2).symm
    _ ≤ 2 ^ w := Nat.pow_le_pow_right (by omega) hw
  unfold allOnes; omega

theorem denseEncode_decode (w : Nat) (hw : 0 < w) (x : Nat)
    (hx : x = 0 ∨ x = allOnes w) :
    (if decide (x = allOnes w) = true then allOnes w else 0) = x := by
  have hpos := allOnes_pos w hw
  rcases hx with h | h <;> subst h
  · have hne : ¬ (0 = allOnes w) := by omega
    simp [hne]
  · simp

theorem lt_two_pow_bytes (n x : Nat) (h : x < 2 ^ n) : x < 256 ^ ((n + 7) / 8) := by
  have h8 : n ≤ 8 * ((n + 7) / 8) := by omega
  calc x < 2 ^ n := h
  _ ≤ 2 ^ (8 * ((n + 7) / 8)) := Nat.pow_le_pow_right (by omega) h8
  _ = 256 ^ ((n + 7) / 8) := by rw [pow_mul]; norm_num

theorem bitsOfNat_getD (n : Nat) : ∀ m i, i < n →
    (bitsOfNat n m).getD i false = packedTest m i := by
  induction n with
  | zero => omega
  | succ n ih =>
    intro m i hi
    cases i with
    | zero => simp [bitsOfNat, packedTest, List.getD]
    | succ i =>
      have := ih (m / 2) i (by omega)
      simp only [bitsOfNat, List.getD_cons_succ, this, packedTest]
      rw [Nat.div_div_eq_div_mul, ← pow_succ']

/-- C1: For every valid mask, converting to a bitmask and back yields the
original mask, under both the dense and the packed backend encodings; and
masks with the same per-lane truth values serialize to the identical
bitmask under either backend (the cross-backend interoperability
contract). -/
theorem C1_bitmask_roundtrip :
    (∀ w v, 0 < w → denseValid w v →
      denseFromBitmask w v.length (denseToBitmask w v) = v) ∧
    (∀ n m, m < 2 ^ n → packedFromBitmask n (packedToBitmask n m) = m) ∧
    (∀ w n v m, 0 < w → v.length = n → m < 2 ^ n →
      (∀ i, i < n → denseTest w v i = packedTest m i) →
      denseToBitmask w v = packedToBitmask n m) := by
  refine ⟨?_, ?_, ?_⟩
  · intro w v hw hv
    unfold denseFromBitmask denseToBitmask
    rw [natOfBytes_bytesOfNat]
    have hlen : (v.map fun x => decide (x = allOnes w)).length = v.length := by
      simp
    have hlt : natOfBits (v.map fun x => decide (x = allOnes w)) < 2 ^ v.length := by
      have := natOfBits_lt (v.map fun x => decide (x = allOnes w))
      rwa [hlen] at this
    rw [Nat.mod_eq_of_lt (lt_two_pow_bytes v.length _ hlt)]
    rw [← hlen, bitsOfNat_natOfBits, List.map_map]
    have : ∀ x ∈ v, ((fun b : Bool => if b = true then allOnes w else 0) ∘
        fun x : Nat => decide (x = allOnes w)) x = x := by
      intro x hx
      exact denseEncode_decode w hw x (hv x hx)
    rw [List.map_congr_left this]
    simp
  · intro n m hm
    unfold packedFromBitmask packedToBitmask
    rw [natOfBytes_bytesOfNat, Nat.mod_eq_of_lt (lt_two_pow_bytes n m hm),
      Nat.mod_eq_of_lt hm]
  · intro w n v m hw hlen hm hagree
    unfold denseToBitmask packedToBitmask
    rw [hlen]
    have hbits : (v.map fun x => decide (x = allOnes w)) = bitsOfNat n m := by
      apply List.ext_getElem
      · simp [hlen, length_bitsOfNat]
      · intro i h1 h2
        have hin : i < n := by rwa [length_bitsOfNat] at h2
        have hiv : i < v.length := by omega
        have hL : (bitsOfNat n m).getD i false = packedTest m i :=
          bitsOfNat_getD n m i hin
        rw [List.getD_eq_getElem _ _ h2] at hL
        rw [hL, ← hagree i hin]
        unfold denseTest
        rw [List.getElem_map, List.getD_eq_getElem _ _ hiv]
    rw [hbits, natOfBits_bitsOfNat n m hm]

/-- Witness for C1 at the concrete valid 8-bit, 3-lane mask
`[255, 0, 255]` and the agreeing packed mask `5` (bits `101`). -/
theorem C1_bitmask_roundtrip_witness :
    denseFromBitmask 8 3 (denseToBitmask 8 [255, 0, 255]) = [255, 0, 255] ∧
    packedFromBitmask 3 (packedToBitmask 3 5) = 5 ∧
    denseToBitmask 8 [255, 0, 255] = packedToBitmask 3 5 :=
  ⟨C1_bitmask_roundtrip.1 8 [255, 0, 255] (by decide) (by decide),
   C1_bitmask_roundtrip.2.1 3 5 (by decide),
   C1_bitmask_roundtrip.2.2 8 3 [255, 0, 255] 5 (by decide) (by decide)
     (by decide) (by decide)⟩

/-! Lemmas toward C2: the `from_array` loop invariant. -/

theorem getD_of_lt {α : Type} (l : List α) (d : α) (i : Nat) (h : i < l.length) :
    l.getD i d = l[i] := by
  rw [List.getD_eq_getElem?_getD, List.getElem?_eq_getElem h]
  rfl

theorem getD_of_le {α : Type} (l : List α) (d : α) (i : Nat) (h : l.length ≤ i) :
    l.getD i d = d := by
  rw [List.getD_eq_getElem?_getD, List.getElem?_eq_none h]
  rfl

theorem denseSet_getD_same (w : Nat) (v : List Nat) (i : Nat) (b : Bool)
    (h : i < v.length) :
    (denseSet w v i b).getD i 0 = if b then allOnes w else 0 := by
  unfold denseSet
  rw [List.getD_eq_getElem?_getD, List.getElem?_set_self h]
  rfl

theorem denseSet_getD_ne (w : Nat) (v : List Nat) (i j : Nat) (b : Bool)
    (h : i ≠ j) :
    (denseSet w v i b).getD j 0 = v.getD j 0 := by
  unfold denseSet
  rw [List.getD_eq_getElem?_getD, List.getElem?_set_ne h,
    ← List.getD_eq_getElem?_getD]

theorem fromArrayLoop_length (w : Nat) (a : List Bool) (fuel : Nat) :
    ∀ v i, (fromArrayLoop w a fuel v i).length = v.length := by
  induction fuel with
  | zero => intro v i; rfl
  | succ fuel ih =>
    intro v i
    unfold fromArrayLoop
    split
    · rw [ih]; simp [denseSet]
    · rfl

theorem fromArrayLoop_getD (w : Nat) (a : List Bool) (fuel : Nat) :
    ∀ i v, a.length ≤ i + fuel → v.length = a.length → ∀ j,
    (fromArrayLoop w a fuel v i).getD j 0 =
      if i ≤ j ∧ j < a.length then (if a.getD j false then allOnes w else 0)
      else v.getD j 0 := by
  induction fuel with
  | zero =>
    intro i v hfuel hv j
    have hnot : ¬ (i ≤ j ∧ j < a.length) := by omega
    simp only [fromArrayLoop, if_neg hnot]
  | succ fuel ih =>
    intro i v hfuel hv j
    by_cases hi : i < a.length
    · simp only [fromArrayLoop, if_pos hi]
      rw [ih (i + 1) (denseSet w v i (a.getD i false)) (by omega)
        (by unfold denseSet; rw [List.length_set]; exact hv) j]
      by_cases hij : i = j
      · subst hij
        have h1 : ¬ (i + 1 ≤ i ∧ i < a.length) := by omega
        have h2 : i ≤ i ∧ i < a.length := ⟨Nat.le_refl i, hi⟩
        rw [if_neg h1, if_pos h2, denseSet_getD_same w v i _ (by omega)]
      · have hcond : (i + 1 ≤ j ∧ j < a.length) ↔ (i ≤ j ∧ j < a.length) := by
          omega
        rw [denseSet_getD_ne w v i j _ hij, if_congr hcond rfl rfl]
    · simp only [fromArrayLoop, if_neg hi]
      have hnot : ¬ (i ≤ j ∧ j < a.length) := by omega
      rw [if_neg hnot]

theorem from_array_getD (w : Nat) (a : List Bool) (j : Nat) (hj : j < a.length) :
    (from_array w a).getD j 0 = if a.getD j false then allOnes w else 0 := by
  unfold from_array
  rw [fromArrayLoop_getD w a a.length 0 (denseSplat w a.length false) (by omega)
    (by simp [denseSplat]) j]
  rw [if_pos ⟨Nat.zero_le j, hj⟩]

theorem from_array_length (w : Nat) (a : List Bool) :
    (from_array w a).length = a.length := by
  unfold from_array
  rw [fromArrayLoop_length]
  simp [denseSplat]

/-- C2: For every element width and every boolean array `a`,
`to_array (from_array a) = a`; conversely, for every valid dense mask,
`from_array (to_array m) = m`, so the two are mutual inverses. -/
theorem C2_to_array_from_array :
    (∀ w a, 0 < w → to_array w a.length (from_array w a) = a) ∧
    (∀ w v, 0 < w → denseValid w v →
      from_array w (to_array w v.length v) = v) := by
  constructor
  · intro w a hw
    apply List.ext_getElem
    · simp [to_array]
    · intro i h1 h2
      have hia : i < a.length := h2
      have hlen : i < (from_array w a).length := by rw [from_array_length]; exact hia
      simp only [to_array, List.getElem_map, List.getElem_range]
      unfold denseTest
      rw [from_array_getD w a i hia]
      have hpos := allOnes_pos w hw
      have hval : a[i] = a.getD i false := (getD_of_lt a false i hia).symm
      cases hb : a.getD i false with
      | false =>
        have hne : ¬ ((0 : Nat) = allOnes w) := by omega
        rw [hb] at hval
        simp [hval, hne]
      | true =>
        rw [hb] at hval
        simp [hval]
  · intro w v hw hv
    have hlen : (from_array w (to_array w v.length v)).length = v.length := by
      rw [from_array_length]
      simp [to_array]
    apply List.ext_getElem hlen
    intro i h1 h2
    have hiv : i < v.length := h2
    have hta : (to_array w v.length v).length = v.length := by simp [to_array]
    rw [← getD_of_lt _ 0 i h1, ← getD_of_lt _ 0 i h2]
    rw [from_array_getD w _ i (by rw [hta]; exact hiv)]
    have harr : (to_array w v.length v).getD i false = denseTest w v i := by
      rw [getD_of_lt _ false i (by rw [hta]; exact hiv)]
      simp only [to_array, List.getElem_map, List.getElem_range]
    rw [harr]
    unfold denseTest
    exact denseEncode_decode w hw (v.getD i 0)
      (by rw [getD_of_lt v 0 i hiv]; exact hv _ (List.getElem_mem hiv))

/-- Witness for C2 at width 8 with the arrays `[true, false, true]` and the
valid dense mask `[0, 255]`. -/
theorem C2_to_array_from_array_witness :
    to_array 8 3 (from_array 8 [true, false, true]) = [true, false, true] ∧
    from_array 8 (to_array 8 2 [0, 255]) = [0, 255] :=
  ⟨C2_to_array_from_array.1 8 [true, false, true] (by decide),
   C2_to_array_from_array.2 8 [0, 255] (by decide) (by decide)⟩

/-- C3: checked `from_int` fails exactly when some lane is neither `0` nor
the all-ones pattern; on success `to_int` recovers the input vector
exactly; and the width-32, 4-lane input `[0, -1, 1, 0]` (with `-1` the
32-bit all-ones pattern) is rejected with the invalid-pattern condition. -/
theorem C3_from_int_checked :
    (∀ w v, from_int w v = none ↔ ∃ x ∈ v, ¬(x = 0 ∨ x = allOnes w)) ∧
    (∀ w v r, from_int w v = some r → to_int r = v) ∧
    (∀ w v, (∀ x ∈ v, x = 0 ∨ x = allOnes w) → from_int w v = some v) ∧
    from_int 32 [0, allOnes 32, 1, 0] = none := by
  refine ⟨?_, ?_, ?_, ?_⟩
  · intro w v
    unfold from_int
    by_cases h : v.all (fun x => x == 0 || x == allOnes w) = true
    · rw [if_pos h]
      simp only [List.all_eq_true, beq_iff_eq, Bool.or_eq_true] at h
      constructor
      · intro hc
        exact absurd hc (by simp)
      · rintro ⟨x, hx, hnx⟩
        exact absurd (h x hx) hnx
    · rw [if_neg h]
      simp only [List.all_eq_true, beq_iff_eq, Bool.or_eq_true] at h
      push_neg at h
      constructor
      · intro _
        obtain ⟨x, hx, hnx⟩ := h
        exact ⟨x, hx, by omega⟩
      · intro _
        rfl
  · intro w v r h
    unfold from_int at h
    split at h
    · cases h; rfl
    · cases h
  · intro w v hall
    have hcond : v.all (fun x => x == 0 || x == allOnes w) = true := by
      simp only [List.all_eq_true, beq_iff_eq, Bool.or_eq_true]
      exact hall
    unfold from_int
    rw [if_pos hcond]
  · decide

/-- Witness for C3: the single invalid lane `3` at width 8 is rejected,
and the valid vector `[0, 255]` round-trips through `from_int`/`to_int`. -/
theorem C3_from_int_checked_witness :
    from_int 8 [3] = none ∧ to_int [0, allOnes 8] = [0, allOnes 8] :=
  ⟨(C3_from_int_checked.1 8 [3]).mpr ⟨3, by decide, by decide⟩,
   C3_from_int_checked.2.1 8 [0, allOnes 8] [0, allOnes 8]
     (C3_from_int_checked.2.2.1 8 [0, allOnes 8] (by decide))⟩

/-- C4: checked `test` and `set` fail exactly when the lane index reaches
the lane count; a rejected `set` produces no mask at all (the bound is
validated before any write happens), and a successful `set` leaves every
lane other than the target unchanged. -/
theorem C4_test_set_bounds :
    (∀ w v lane, Mask.test w v lane = none ↔ v.length ≤ lane) ∧
    (∀ w v lane b, Mask.set w v lane b = none ↔ v.length ≤ lane) ∧
    (∀ w v lane b, v.length ≤ lane → Mask.set w v lane b = none) ∧
    (∀ w v lane b r, Mask.set w v lane b = some r →
      r.length = v.length ∧ ∀ j, j ≠ lane → r.getD j 0 = v.getD j 0) := by
  refine ⟨?_, ?_, ?_, ?_⟩
  · intro w v lane
    unfold Mask.test
    split
    · rename_i h
      constructor
      · intro hc
        exact absurd hc (by simp)
      · intro hc
        omega
    · rename_i h
      constructor
      · intro _
        omega
      · intro _
        rfl
  · intro w v lane b
    unfold Mask.set
    split
    · rename_i h
      constructor
      · intro hc
        exact absurd hc (by simp)
      · intro hc
        omega
    · rename_i h
      constructor
      · intro _
        omega
      · intro _
        rfl
  · intro w v lane b h
    unfold Mask.set
    rw [if_neg (by omega)]
  · intro w v lane b r h
    unfold Mask.set at h
    split at h
    · cases h
      refine ⟨by simp [denseSet], ?_⟩
      intro j hj
      exact denseSet_getD_ne w v lane j b (fun hc => hj hc.symm)
    · cases h

/-- Witness for C4: lane 2 of a 2-lane mask is rejected by both checked
accessors, and a successful set of lane 0 leaves lane 1 unchanged. -/
theorem C4_test_set_bounds_witness :
    Mask.test 8 [0, 255] 2 = none ∧
    Mask.set 8 [0, 255] 2 true = none ∧
    (denseSet 8 [0, 255] 0 true).getD 1 0 = [0, 255].getD 1 0 :=
  ⟨(C4_test_set_bounds.1 8 [0, 255] 2).mpr (by decide),
   C4_test_set_bounds.2.2.1 8 [0, 255] 2 true (by decide),
   (C4_test_set_bounds.2.2.2 8 [0, 255] 0 true
     (denseSet 8 [0, 255] 0 true) rfl).2 1 (by decide)⟩

/-! The reduction engine (`reduction.rs`). The reductions delegate to
compiler intrinsics whose implementation (`intrinsics.rs`) is not under
`src/`; the intrinsics are modelled from the spec. -/

/-- Modelled from the spec: the `simd_reduce_add_ordered` intrinsic — an
ordered left-to-right fold from the given initial value with wrapping
(mod `2 ^ w`) addition (`intrinsics.rs` is not under `src/`). -/
def simd_reduce_add_ordered (w : Nat) (v : List Nat) (i : Nat) : Nat :=
  v.foldl (fun acc x => (acc + x) % 2 ^ w) i

/-- Modelled from the spec: the `simd_reduce_mul_ordered` intrinsic — an
ordered left-to-right fold from the given initial value with wrapping
(mod `2 ^ w`) multiplication (`intrinsics.rs` is not under `src/`). -/
def simd_reduce_mul_ordered (w : Nat) (v : List Nat) (i : Nat) : Nat :=
  v.foldl (fun acc x => (acc * x) % 2 ^ w) i

/-- Integer `horizontal_sum` (`reduction.rs` lines 7-11): the ordered
wrapping-add reduction seeded with the additive identity `0`. -/
def horizontal_sum (w : Nat) (v : List Nat) : Nat :=
  simd_reduce_add_ordered w v 0

/-- Integer `horizontal_product` (`reduction.rs` lines 13-17): the ordered
wrapping-multiply reduction seeded with the multiplicative identity `1`. -/
def horizontal_product (w : Nat) (v : List Nat) : Nat :=
  simd_reduce_mul_ordered w v 1

theorem simd_reduce_add_ordered_eq (w : Nat) (v : List Nat) :
    ∀ i, i < 2 ^ w → simd_reduce_add_ordered w v i = (i + v.sum) % 2 ^ w := by
  induction v with
  | nil =>
    intro i hi
    simp only [simd_reduce_add_ordered, List.foldl_nil, List.sum_nil,
      Nat.add_zero]
    exact (Nat.mod_eq_of_lt hi).symm
  | cons x xs ih =>
    intro i hi
    have hpos : 0 < 2 ^ w := Nat.pos_pow_of_pos w (by omega)
    simp only [simd_reduce_add_ordered, List.foldl_cons, List.sum_cons]
    have := ih ((i + x) % 2 ^ w) (Nat.mod_lt _ hpos)
    simp only [simd_reduce_add_ordered] at this
    rw [this, Nat.mod_add_mod, ← Nat.add_assoc]

theorem simd_reduce_mul_ordered_eq (w : Nat) (v : List Nat) :
    ∀ i, i < 2 ^ w → simd_reduce_mul_ordered w v i = (i * v.prod) % 2 ^ w := by
  induction v with
  | nil =>
    intro i hi
    simp only [simd_reduce_mul_ordered, List.foldl_nil, List.prod_nil,
      Nat.mul_one]
    exact (Nat.mod_eq_of_lt hi).symm
  | cons x xs ih =>
    intro i hi
    have hpos : 0 < 2 ^ w := Nat.pos_pow_of_pos w (by omega)
    simp only [simd_reduce_mul_ordered, List.foldl_cons, List.prod_cons]
    have := ih ((i * x) % 2 ^ w) (Nat.mod_lt _ hpos)
    simp only [simd_reduce_mul_ordered] at this
    rw [this, Nat.mod_mul_mod, Nat.mul_assoc]

/-- C5: integer `horizontal_sum` / `horizontal_product` are the ordered
left-to-right folds over the lanes seeded with the additive identity 0
resp. the multiplicative identity 1 under wrapping (mod `2 ^ w`)
arithmetic — hence they equal the wrapped sum resp. product of the lanes —
and on the 8-lane 32-bit vector `[1, 2, 3, 4, 5, 6, 7, 8]` they return 36
and 40320. -/
theorem C5_horizontal_sum_product :
    (∀ w v, horizontal_sum w v = v.sum % 2 ^ w) ∧
    (∀ w v, 0 < w → horizontal_product w v = v.prod % 2 ^ w) ∧
    horizontal_sum 32 [1, 2, 3, 4, 5, 6, 7, 8] = 36 ∧
    horizontal_product 32 [1, 2, 3, 4, 5, 6, 7, 8] = 40320 := by
  refine ⟨?_, ?_, by decide, by decide⟩
  · intro w v
    unfold horizontal_sum
    rw [simd_reduce_add_ordered_eq w v 0 (Nat.pos_pow_of_pos w (by omega))]
    rw [Nat.zero_add]
  · intro w v hw
    unfold horizontal_product
    have h1 : 1 < 2 ^ w := by
      calc 1 < 2 ^ 1 := by omega
      _ ≤ 2 ^ w := Nat.pow_le_pow_right (by omega) hw
    rw [simd_reduce_mul_ordered_eq w v 1 h1, Nat.one_mul]

/-- Witness for C5 at width 8 with the vector `[3, 5]`. -/
theorem C5_horizontal_sum_product_witness :
    horizontal_product 8 [3, 5] = 15 :=
  (C5_horizontal_sum_product.2.1 8 [3, 5] (by decide)).trans (by decide)

/-- Modelled from the spec: width conversion at fixed lane count — the
`From` impls of `masks/mod.rs` lines 553-574 delegate to the backend's
conversion, which lives in the backend file not under `src/`; per the
spec it preserves each lane's truth value while changing only the
physical width, so each lane is re-encoded as `0`/all-ones at the new
width. -/
def denseConvert (w1 w2 : Nat) (v : List Nat) : List Nat :=
  v.map fun x => if x = allOnes w1 then allOnes w2 else 0

/-- C10: converting a valid dense mask from width `w1` to width `w2` and
back at the same lane count restores the original mask, and in particular
its per-lane boolean pattern (`to_array`). -/
theorem C10_width_roundtrip (w1 w2 : Nat) (h1 : 0 < w1) (h2 : 0 < w2)
    (v : List Nat) (hv : denseValid w1 v) :
    denseConvert w2 w1 (denseConvert w1 w2 v) = v ∧
    to_array w1 v.length (denseConvert w2 w1 (denseConvert w1 w2 v)) =
      to_array w1 v.length v := by
  have hmain : denseConvert w2 w1 (denseConvert w1 w2 v) = v := by
    unfold denseConvert
    rw [List.map_map]
    have hpt : ∀ x ∈ v, ((fun x => if x = allOnes w2 then allOnes w1 else 0) ∘
        fun x => if x = allOnes w1 then allOnes w2 else 0) x = x := by
      intro x hx
      have p1 := allOnes_pos w1 h1
      have p2 := allOnes_pos w2 h2
      rcases hv x hx with h | h <;> subst h
      · have e1 : ¬ ((0 : Nat) = allOnes w1) := by omega
        have e2 : ¬ ((0 : Nat) = allOnes w2) := by omega
        simp [Function.comp, e1, e2]
      · simp [Function.comp]
    rw [List.map_congr_left hpt]
    simp
  exact ⟨hmain, by rw [hmain]⟩

/-- Witness for C10 converting the valid 8-bit two-lane mask `[255, 0]`
to width 32 and back. -/
theorem C10_width_roundtrip_witness :
    denseConvert 32 8 (denseConvert 8 32 [255, 0]) = [255, 0] :=
  (C10_width_roundtrip 8 32 (by decide) (by decide) [255, 0] (by decide)).1

/-! Lane-count support (C9). -/

/-- Bitmask byte width assigned to each lane count by the `Mask` trait
impls generated inside `define_opaque_mask` (`masks/mod.rs` lines 49-72):
only lane counts 1, 2, 4, 8, 16 and 32 receive an impl; every mask
operation requires the `Mask` bound, so a lane count mapped to `none`
has none of the mask operations available. -/
def maskBitMaskBytes (n : Nat) : Option Nat :=
  if n = 1 ∨ n = 2 ∨ n = 4 ∨ n = 8 then some 1
  else if n = 16 then some 2
  else if n = 32 then some 4
  else none

/-- Lane count named by the exported alias `mask8x64` (`masks/mod.rs`
line 509). -/
def mask8x64Lanes : Nat := 64

/-- Lane counts at which the mask operations are available. -/
def supportedLaneCounts : List Nat := [1, 2, 4, 8, 16, 32]

/-- C9 counterexample: the exported alias `mask8x64` names a 64-lane
8-bit mask type, but 64 is not among the lane counts given a `Mask` impl,
so no mask operation is available on it — refuting the claim that it is
a fully supported member of the mask family. -/
theorem C9_counterexample :
    mask8x64Lanes = 64 ∧ maskBitMaskBytes mask8x64Lanes = none ∧
    ¬ mask8x64Lanes ∈ supportedLaneCounts := by decide

/-- C9 amended: the supported lane counts of the mask family are exactly
1, 2, 4, 8, 16 and 32, for every element width; the exported 64-lane
8-bit alias `mask8x64` exists but is not a supported member — no mask
operation is available at its lane count. -/
theorem C9_supported_lane_counts :
    (∀ n, (maskBitMaskBytes n).isSome = true ↔ n ∈ supportedLaneCounts) ∧
    mask8x64Lanes = 64 ∧ maskBitMaskBytes mask8x64Lanes = none := by
  refine ⟨?_, rfl, rfl⟩
  intro n
  unfold maskBitMaskBytes supportedLaneCounts
  split
  · rename_i h
    simp
    omega
  · split
    · rename_i h1 h2
      simp
      omega
    · split
      · rename_i h1 h2 h3
        simp
        omega
      · rename_i h1 h2 h3
        simp
        omega

/-! The transcendental sine approximation (`libmf32.rs`). Every `SimdF32`
operation used by `sin` (splat, `*`, `-`, `floor`, `mul_add`) acts
lane-wise, so the computation is modelled per lane, over exact rationals
with `f32` literals taken at their written decimal values. The
`simd_floor` intrinsic backing `floor` (`round.rs` lines 17-22;
`intrinsics.rs` is not under `src/`) is modelled from the spec as the
lane-wise mathematical floor. -/

/-- Value of the `f32` constant `core::f32::consts::PI`: the IEEE-754
single-precision number nearest to pi, namely `13176795 / 2 ^ 22`. -/
def pi32 : ℚ := 13176795 / 4194304

/-- The `mul_add` helper of `libmf32.rs` lines 8-11: `self * mul + add`. -/
def SimdF32.mul_add (a b c : ℚ) : ℚ := a * b + c

/-- The six polynomial coefficients applied by the `mul_add` chain of
`sin`, in application order (`libmf32.rs` lines 27-32). -/
def sinCoeffs : List ℚ :=
  [12.268859941019306, -41.216241051002875, 76.58672703334098,
   -81.59746095374902, 41.34151143437585, -6.283184525811273]

/-- Range-reduction step of `sin` (`libmf32.rs` lines 25-26): scale into
cycle units by `1.0 / (PI * 2.0)`, subtract the floor, shift by `0.5`. -/
def sinReduce (x0 : ℚ) : ℚ :=
  let x := 1 / (pi32 * 2) * x0
  x - (⌊x⌋ : ℚ) - 0.5

/-- Fused multiply-add Horner chain over a coefficient list: start from
the first coefficient and fold `mul_add acc u c` over the remaining
ones. -/
def hornerEval (cs : List ℚ) (u : ℚ) : ℚ :=
  match cs with
  | [] => 0
  | c :: rest => rest.foldl (fun acc d => SimdF32.mul_add acc u d) c

/-- The `sin` computation (`libmf32.rs` lines 24-34), per lane over exact
rationals. -/
def SimdF32.sin (x0 : ℚ) : ℚ :=
  let x := 1 / (pi32 * 2) * x0
  let x := x - (⌊x⌋ : ℚ) - 0.5
  SimdF32.mul_add
    (SimdF32.mul_add
      (SimdF32.mul_add
        (SimdF32.mul_add
          (SimdF32.mul_add 12.268859941019306 (x * x) (-41.216241051002875))
          (x * x) 76.58672703334098)
        (x * x) (-81.59746095374902))
      (x * x) 41.34151143437585)
    (x * x) (-6.283184525811273) * x

/-- C8 counterexample: the polynomial evaluated by the `mul_add` chain of
`sin` has exactly six coefficients, not seven as the claim states. -/
theorem C8_counterexample :
    sinCoeffs.length = 6 ∧ ¬ sinCoeffs.length = 7 := by decide

/-- C8 amended: `sin` computes exactly by (1) range reduction — scaling
by the reciprocal period and subtracting the floor plus one half cycle,
landing in the bounded fractional-cycle range `[-1/2, 1/2)` — then (2) a
fused multiply-add Horner chain over the squared reduced argument through
the fixed six-coefficient list, followed by one final multiply by the
reduced argument. -/
theorem C8_sin_structure (x : ℚ) :
    SimdF32.sin x =
      hornerEval sinCoeffs (sinReduce x * sinReduce x) * sinReduce x ∧
    sinReduce x =
      1 / (pi32 * 2) * x - (⌊1 / (pi32 * 2) * x⌋ : ℚ) - 0.5 ∧
    -(1 / 2) ≤ sinReduce x ∧ sinReduce x < 1 / 2 ∧
    sinCoeffs.length = 6 := by
  refine ⟨rfl, rfl, ?_, ?_, rfl⟩
  · have hfr : sinReduce x = Int.fract (1 / (pi32 * 2) * x) - 0.5 := by
      unfold sinReduce Int.fract
      ring
    have h0 := Int.fract_nonneg (1 / (pi32 * 2) * x)
    have hhalf : (0.5 : ℚ) = 1 / 2 := by norm_num
    rw [hfr, hhalf]
    linarith
  · have hfr : sinReduce x = Int.fract (1 / (pi32 * 2) * x) - 0.5 := by
      unfold sinReduce Int.fract
      ring
    have h1 := Int.fract_lt_one (1 / (pi32 * 2) * x)
    have hhalf : (0.5 : ℚ) = 1 / 2 := by norm_num
    rw [hfr, hhalf]
    linarith
